import Mathlib

/-!
Verification of the Kinesis producer/consumer pipeline.

This file shallowly embeds the two Lambda handlers of the repository and the
wire codec they rely on:

* `packages/infra/producer/lambda/index.ts` : builds a `MessageEvent`
  record with payload `'Hello'` and the current wall-clock time, serializes
  it with `JSON.stringify`, issues exactly one `PutRecord` call, and logs
  `'Producer sent:'` with the event on success.
* `packages/infra/consumer/lambda/index.ts` : iterates the delivered batch
  in order; for each record it base64-decodes `record.kinesis.data`, decodes
  the bytes as UTF-8, applies `JSON.parse`, and logs `'Consumer received:'`
  with the parsed value.  An undecodable record makes `JSON.parse` throw,
  which aborts the loop and fails the whole invocation.

Modelling conventions:
* strings are `List Char` (Lean `Char` = Unicode scalar values), bytes are
  `Nat` values below 256;
* `JSON.stringify` and `JSON.parse` are modelled over a `Json` value type
  whose numbers are integers (the program only ever serializes the integer
  `Date.now()`; floating-point literals are outside the embedding);
* `JSON.parse` is modelled by a fuelled recursive-descent parser over the
  JSON grammar (objects, arrays, strings with escapes, integer numbers,
  `true`/`false`/`null`, whitespace);
* the base64 transport decoding performed by `Buffer.from(data, 'base64')`
  is modelled leniently (non-alphabet characters are ignored), matching
  Node's forgiving decoder; UTF-8 decoding is likewise total.
* effects (`PutRecord` calls, `console.log` lines) are returned as explicit
  traces so that the order and number of side effects is observable.
-/

/-- The shared wire type of `@shared/types` (`src/unnamed/part_000`):
`interface MessageEvent { message: string; time: number }`.  The `time`
field holds `Date.now()`, an integer count of milliseconds. -/
structure MessageEvent where
  message : List Char
  time : Int
deriving DecidableEq, Repr

/-- JSON values as produced by `JSON.parse` / consumed by `JSON.stringify`.
Objects keep their members in textual order; duplicate keys are kept in the
list and field lookup takes the last binding, matching JavaScript object
construction.  Numbers are modelled as integers (see the file header). -/
inductive Json where
  | null : Json
  | bool : Bool → Json
  | num : Int → Json
  | str : List Char → Json
  | arr : List Json → Json
  | obj : List (List Char × Json) → Json
deriving Repr

/-- The error taxonomy of the specification for the codec: `MalformedPayload`
for unparseable input and `MissingField` for an absent required attribute.
The code's decode path (`JSON.parse`) can only fail by throwing a syntax
error, which this embedding renders as `MalformedPayload`; no code path
produces `MissingField`. -/
inductive DecodeError where
  | MalformedPayload : DecodeError
  | MissingField : DecodeError
deriving DecidableEq, Repr

/-- The producer-side failure: the `PutRecord` call rejected.  The payload
is an opaque service message. -/
structure PublishError where
  detail : List Char
deriving DecidableEq, Repr

/-! ## Decimal printing of integers (JSON.stringify on numbers) -/

/-- The decimal digit character for a value below ten. -/
def digitChar10 (n : Nat) : Char := Char.ofNat (48 + n)

/-- Most-significant-first decimal digits of a natural number. -/
def natDigits (n : Nat) : List Char :=
  if _h : n < 10 then [digitChar10 n]
  else natDigits (n / 10) ++ [digitChar10 (n % 10)]
termination_by n
decreasing_by
  omega

/-- Decimal rendering of an integer, as `JSON.stringify` prints the integer
`Date.now()` value. -/
def intToDec (t : Int) : List Char :=
  if t < 0 then '-' :: natDigits (-t).toNat else natDigits t.toNat

/-! ## String escaping (JSON.stringify on strings) -/

/-- Hexadecimal digit character (lowercase letters), used for `\u00XX`
escapes of control characters. -/
def hexChar (n : Nat) : Char :=
  if n < 10 then Char.ofNat (48 + n) else Char.ofNat (87 + n)

/-- How `JSON.stringify` renders one character inside a string literal:
quote and backslash are escaped, the control characters with short escapes
use them, any other control character becomes `\u00XX`, and every other
character is emitted literally. -/
def escapeChar (c : Char) : List Char :=
  if c = '"' then ['\\', '"']
  else if c = '\\' then ['\\', '\\']
  else if c = '\x08' then ['\\', 'b']
  else if c = '\x09' then ['\\', 't']
  else if c = '\x0a' then ['\\', 'n']
  else if c = '\x0c' then ['\\', 'f']
  else if c = '\x0d' then ['\\', 'r']
  else if c.toNat < 32 then
    ['\\', 'u', '0', '0', hexChar (c.toNat / 16), hexChar (c.toNat % 16)]
  else [c]

/-- Escape a whole string body. -/
def escapeString (s : List Char) : List Char := s.flatMap escapeChar

/-! ## JSON serialization (JSON.stringify) -/

mutual

/-- The text `JSON.stringify` produces for a `Json` value (no extra
whitespace, object members in list order). -/
def stringify : Json → List Char
  | .null => ['n', 'u', 'l', 'l']
  | .bool b => if b then ['t', 'r', 'u', 'e'] else ['f', 'a', 'l', 's', 'e']
  | .num t => intToDec t
  | .str s => '"' :: (escapeString s ++ ['"'])
  | .arr [] => ['[', ']']
  | .arr (x :: xs) => '[' :: (stringifyElems x xs ++ [']'])
  | .obj [] => ['\x7b', '\x7d']
  | .obj (m :: ms) => '\x7b' :: (stringifyMembers m ms ++ ['\x7d'])
termination_by j => sizeOf j
decreasing_by all_goals (simp_wf; try omega)

/-- Comma-separated rendering of a nonempty array tail. -/
def stringifyElems : Json → List Json → List Char
  | x, [] => stringify x
  | x, y :: ys => stringify x ++ ',' :: stringifyElems y ys
termination_by x xs => sizeOf x + sizeOf xs
decreasing_by all_goals (simp_wf; try omega)

/-- Comma-separated rendering of a nonempty member list. -/
def stringifyMembers : (List Char × Json) → List (List Char × Json) → List Char
  | (k, v), [] => '"' :: (escapeString k ++ '"' :: ':' :: stringify v)
  | (k, v), m :: ms =>
      ('"' :: (escapeString k ++ '"' :: ':' :: stringify v)) ++ ',' :: stringifyMembers m ms
termination_by m ms => sizeOf m + sizeOf ms
decreasing_by all_goals (simp_wf; try omega)

end

/-! ## JSON parsing (JSON.parse) -/

/-- JSON insignificant whitespace. -/
def isWsChar (c : Char) : Bool :=
  c = ' ' || c = '\x09' || c = '\x0a' || c = '\x0d'

/-- Skip leading JSON whitespace. -/
def skipWs : List Char → List Char
  | [] => []
  | c :: rest => if isWsChar c then skipWs rest else c :: rest

/-- Whether a list starts with the given character. -/
def headIs (c : Char) : List Char → Bool
  | [] => false
  | x :: _ => x = c

/-- Consume an expected literal character sequence. -/
def expectChars : List Char → List Char → Option (List Char)
  | [], s => some s
  | e :: es, c :: s => if c = e then expectChars es s else none
  | _ :: _, [] => none

/-- Value of a hexadecimal digit character (either case). -/
def hexVal (c : Char) : Option Nat :=
  if 48 ≤ c.toNat ∧ c.toNat ≤ 57 then some (c.toNat - 48)
  else if 97 ≤ c.toNat ∧ c.toNat ≤ 102 then some (c.toNat - 87)
  else if 65 ≤ c.toNat ∧ c.toNat ≤ 70 then some (c.toNat - 55)
  else none

mutual

/-- Parse the body of a JSON string literal (the opening quote already
consumed), returning the decoded characters and the input after the closing
quote.  Unescaped control characters are a syntax error; `\uXXXX` escapes
denoting surrogate halves are rejected (Lean characters are Unicode scalar
values; the program never produces such escapes). -/
def parseStr : List Char → Option (List Char × List Char)
  | [] => none
  | c :: rest =>
    if c = '"' then some ([], rest)
    else if c = '\\' then parseEsc rest
    else if c.toNat < 32 then none
    else (parseStr rest).map fun p => (c :: p.1, p.2)

/-- Decode one escape sequence (the backslash already consumed). -/
def parseEsc : List Char → Option (List Char × List Char)
  | [] => none
  | e :: r =>
    if e = '"' then (parseStr r).map fun p => ('"' :: p.1, p.2)
    else if e = '\\' then (parseStr r).map fun p => ('\\' :: p.1, p.2)
    else if e = '/' then (parseStr r).map fun p => ('/' :: p.1, p.2)
    else if e = 'b' then (parseStr r).map fun p => ('\x08' :: p.1, p.2)
    else if e = 'f' then (parseStr r).map fun p => ('\x0c' :: p.1, p.2)
    else if e = 'n' then (parseStr r).map fun p => ('\x0a' :: p.1, p.2)
    else if e = 'r' then (parseStr r).map fun p => ('\x0d' :: p.1, p.2)
    else if e = 't' then (parseStr r).map fun p => ('\x09' :: p.1, p.2)
    else if e = 'u' then parseEscU r
    else none

/-- Decode a `\uXXXX` escape (the `\u` already consumed). -/
def parseEscU : List Char → Option (List Char × List Char)
  | a :: b :: c2 :: d :: r2 =>
    match hexVal a, hexVal b, hexVal c2, hexVal d with
    | some va, some vb, some vc, some vd =>
      let n := va * 4096 + vb * 256 + vc * 16 + vd
      if n.isValidChar then (parseStr r2).map fun p => (Char.ofNat n :: p.1, p.2)
      else none
    | _, _, _, _ => none
  | _ => none

end

/-- Accumulating decimal-digit scanner: consumes the longest digit run. -/
def parseDigitsAcc (acc : Nat) : List Char → Nat × List Char
  | [] => (acc, [])
  | c :: rest =>
    if c.isDigit then parseDigitsAcc (acc * 10 + (c.toNat - 48)) rest
    else (acc, c :: rest)

/-- Parse a JSON natural-number literal: either a single `0`, or a nonzero
leading digit followed by further digits (JSON forbids leading zeros). -/
def parseNatLit : List Char → Option (Nat × List Char)
  | [] => none
  | c :: rest =>
    if c = '0' then some (0, rest)
    else if c.isDigit then some (parseDigitsAcc (c.toNat - 48) rest)
    else none

/-- Parse a JSON integer number (optional minus sign).  Fractional parts and
exponents are outside the embedding (see the file header); an input using
them parses as the integer part, after which the leftover text makes the
enclosing document malformed. -/
def parseNum (s : List Char) : Option (Json × List Char) :=
  if headIs '-' s then (parseNatLit s.tail).map fun p => (Json.num (-(p.1 : Int)), p.2)
  else (parseNatLit s).map fun p => (Json.num (p.1 : Int), p.2)

mutual

/-- Fuelled recursive-descent parser for one JSON value; returns the value
and the unconsumed input.  The fuel only bounds nesting-related recursion;
`parseJson` supplies more than enough. -/
def parseV : Nat → List Char → Option (Json × List Char)
  | 0, _ => none
  | f + 1, s =>
    match skipWs s with
    | [] => none
    | c :: r =>
      if c = '"' then (parseStr r).map fun p => (Json.str p.1, p.2)
      else if c = '[' then
        let r1 := skipWs r
        if headIs ']' r1 then some (Json.arr [], r1.tail)
        else (parseElems f r1).map fun p => (Json.arr p.1, p.2)
      else if c = '\x7b' then
        let r1 := skipWs r
        if headIs '\x7d' r1 then some (Json.obj [], r1.tail)
        else (parseMembers f r1).map fun p => (Json.obj p.1, p.2)
      else if c = 'n' then (expectChars ['u', 'l', 'l'] r).map fun r2 => (Json.null, r2)
      else if c = 't' then (expectChars ['r', 'u', 'e'] r).map fun r2 => (Json.bool true, r2)
      else if c = 'f' then (expectChars ['a', 'l', 's', 'e'] r).map fun r2 => (Json.bool false, r2)
      else parseNum (c :: r)

/-- Parse a nonempty comma-separated element list followed by `]`. -/
def parseElems : Nat → List Char → Option (List Json × List Char)
  | 0, _ => none
  | f + 1, s =>
    match parseV f s with
    | none => none
    | some (j, r) =>
      let r1 := skipWs r
      if headIs ',' r1 then (parseElems f r1.tail).map fun p => (j :: p.1, p.2)
      else if headIs ']' r1 then some ([j], r1.tail)
      else none

/-- Parse a nonempty comma-separated member list followed by the closing
brace. -/
def parseMembers : Nat → List Char → Option (List (List Char × Json) × List Char)
  | 0, _ => none
  | f + 1, s =>
    match skipWs s with
    | [] => none
    | c :: r =>
      if c = '"' then
        match parseStr r with
        | none => none
        | some (k, r1) =>
          let r2 := skipWs r1
          if headIs ':' r2 then
            match parseV f r2.tail with
            | none => none
            | some (j, r3) =>
              let r4 := skipWs r3
              if headIs ',' r4 then
                (parseMembers f r4.tail).map fun p => ((k, j) :: p.1, p.2)
              else if headIs '\x7d' r4 then some ([(k, j)], r4.tail)
              else none
          else none
      else none

end

/-- The model of `JSON.parse`: parse one value and require that only
whitespace remains.  Returns `none` where `JSON.parse` throws a
`SyntaxError`.  The fuel `s.length + 1` dominates the nesting depth of any
parseable input. -/
def parseJson (s : List Char) : Option Json :=
  match parseV (s.length + 1) s with
  | some (j, rest) => if skipWs rest = [] then some j else none
  | none => none

/-! ## UTF-8 (Buffer.from(string) / buffer.toString('utf-8')) -/

/-- UTF-8 encoding of one Unicode scalar value. -/
def utf8EncodeChar (c : Char) : List Nat :=
  let n := c.toNat
  if n < 0x80 then [n]
  else if n < 0x800 then [0xC0 + n / 64, 0x80 + n % 64]
  else if n < 0x10000 then [0xE0 + n / 4096, 0x80 + n / 64 % 64, 0x80 + n % 64]
  else [0xF0 + n / 262144, 0x80 + n / 4096 % 64, 0x80 + n / 64 % 64, 0x80 + n % 64]

/-- UTF-8 encoding of a string, as `Buffer.from(s)` produces. -/
def utf8Encode (s : List Char) : List Nat := s.flatMap utf8EncodeChar

mutual

/-- Total UTF-8 decoding, as `buffer.toString('utf-8')` never throws.  On
byte sequences that are not valid UTF-8 the model is lenient (Node would
substitute U+FFFD; the model reconstructs a scalar value or falls back to
U+FFFD on truncation) - only round-trips of valid encodings matter to the
program, whose payloads are produced by `Buffer.from`. -/
def utf8Decode : List Nat → List Char
  | [] => []
  | b0 :: bs =>
    if b0 < 0x80 then Char.ofNat b0 :: utf8Decode bs
    else if b0 < 0xE0 then utf8Tail1 b0 bs
    else if b0 < 0xF0 then utf8Tail2 b0 bs
    else utf8Tail3 b0 bs

/-- Continuation of a two-byte sequence. -/
def utf8Tail1 (b0 : Nat) : List Nat → List Char
  | b1 :: bs1 => Char.ofNat ((b0 - 0xC0) * 64 + (b1 - 0x80)) :: utf8Decode bs1
  | [] => ['�']

/-- Continuation of a three-byte sequence. -/
def utf8Tail2 (b0 : Nat) : List Nat → List Char
  | b1 :: b2 :: bs2 =>
    Char.ofNat ((b0 - 0xE0) * 4096 + (b1 - 0x80) * 64 + (b2 - 0x80)) :: utf8Decode bs2
  | _ => ['�']

/-- Continuation of a four-byte sequence. -/
def utf8Tail3 (b0 : Nat) : List Nat → List Char
  | b1 :: b2 :: b3 :: bs3 =>
    Char.ofNat ((b0 - 0xF0) * 262144 + (b1 - 0x80) * 4096 + (b2 - 0x80) * 64 + (b3 - 0x80))
      :: utf8Decode bs3
  | _ => ['�']

end

/-! ## Base64 (the Kinesis transport encoding of `record.kinesis.data`) -/

/-- The standard base64 alphabet character for a six-bit value. -/
def sixToChar (n : Nat) : Char :=
  if n < 26 then Char.ofNat (65 + n)
  else if n < 52 then Char.ofNat (97 + (n - 26))
  else if n < 62 then Char.ofNat (48 + (n - 52))
  else if n = 62 then '+'
  else '/'

/-- Six-bit value of a base64 alphabet character; `none` for everything
else (including the `=` padding), which Node's decoder skips. -/
def charToSix (c : Char) : Option Nat :=
  if 65 ≤ c.toNat ∧ c.toNat ≤ 90 then some (c.toNat - 65)
  else if 97 ≤ c.toNat ∧ c.toNat ≤ 122 then some (c.toNat - 97 + 26)
  else if 48 ≤ c.toNat ∧ c.toNat ≤ 57 then some (c.toNat - 48 + 52)
  else if c = '+' then some 62
  else if c = '/' then some 63
  else none

/-- Standard base64 encoding with padding, as the Kinesis record transport
presents payload bytes to the consumer. -/
def base64Encode : List Nat → List Char
  | [] => []
  | [b0] => [sixToChar (b0 / 4), sixToChar (b0 % 4 * 16), '=', '=']
  | [b0, b1] => [sixToChar (b0 / 4), sixToChar (b0 % 4 * 16 + b1 / 16), sixToChar (b1 % 16 * 4), '=']
  | b0 :: b1 :: b2 :: rest =>
    sixToChar (b0 / 4) :: sixToChar (b0 % 4 * 16 + b1 / 16) ::
      sixToChar (b1 % 16 * 4 + b2 / 64) :: sixToChar (b2 % 64) :: base64Encode rest

/-- The six-bit values of the alphabet characters of a string, in order,
ignoring everything else - the lenient scan of Node's base64 decoder. -/
def sextets (s : List Char) : List Nat := s.filterMap charToSix

/-- Reassemble bytes from six-bit groups: each full group of four yields
three bytes; a trailing group of three yields two bytes, of two yields one
byte, and a lone trailing sextet is dropped, as in Node. -/
def bytesOfSextets : List Nat → List Nat
  | d0 :: d1 :: d2 :: d3 :: rest =>
    (d0 * 4 + d1 / 16) :: (d1 % 16 * 16 + d2 / 4) :: (d2 % 4 * 64 + d3) :: bytesOfSextets rest
  | [d0, d1] => [d0 * 4 + d1 / 16]
  | [d0, d1, d2] => [d0 * 4 + d1 / 16, d1 % 16 * 16 + d2 / 4]
  | _ => []

/-- The model of `Buffer.from(s, 'base64')`. -/
def base64Decode (s : List Char) : List Nat := bytesOfSextets (sextets s)

/-! ## The wire codec of the pipeline -/

/-- The wire name of the `message` property. -/
def msgKey : List Char := ['m', 'e', 's', 's', 'a', 'g', 'e']

/-- The wire name of the `time` property. -/
def timeKey : List Char := ['t', 'i', 'm', 'e']

/-- The JSON document the producer serializes:
`JSON.stringify({ message: ..., time: ... })` with members in property
order. -/
def jsonOfEvent (e : MessageEvent) : Json :=
  Json.obj [(msgKey, Json.str e.message), (timeKey, Json.num e.time)]

/-- The producer's encode: `Buffer.from(JSON.stringify(event))`, the bytes
handed to `PutRecordCommand` as `Data`. -/
def producerEncode (e : MessageEvent) : List Nat :=
  utf8Encode (stringify (jsonOfEvent e))

/-- The consumer's decode of payload bytes: UTF-8 text then `JSON.parse`.
The only failure of `JSON.parse` is a syntax error, rendered as
`MalformedPayload`; no path produces `MissingField` because the code does
not validate fields. -/
def decodeBytes (bs : List Nat) : Except DecodeError Json :=
  match parseJson (utf8Decode bs) with
  | some j => Except.ok j
  | none => Except.error DecodeError.MalformedPayload

/-- The consumer's per-record decode, from the transported base64 text:
`Buffer.from(record.kinesis.data, 'base64').toString('utf-8')` then
`JSON.parse`. -/
def consumerDecode (b64 : List Char) : Except DecodeError Json :=
  decodeBytes (base64Decode b64)

/-- Last-binding field lookup on a JSON object, the way a parsed JavaScript
object resolves a property when keys repeat. -/
def lookupLast (k : List Char) : List (List Char × Json) → Option Json
  | [] => none
  | (k0, v) :: rest => match lookupLast k rest with
    | some v1 => some v1
    | none => if k0 = k then some v else none

/-- The typed view the consumer's TypeScript cast takes of a parsed value:
reading the `message` and `time` properties of a JSON object as a
`MessageEvent`.  Extra properties are ignored by this view. -/
def eventOfJson : Json → Option MessageEvent
  | Json.obj fields =>
    match lookupLast msgKey fields, lookupLast timeKey fields with
    | some (Json.str m), some (Json.num t) => some ⟨m, t⟩
    | _, _ => none
  | _ => none

/-! ## Producer handler (packages/infra/producer/lambda/index.ts) -/

/-- One `client.send(new PutRecordCommand(...))` call: the stream name from
the environment, the fixed partition key, and the payload bytes. -/
structure PutRecordCall where
  streamName : List Char
  partitionKey : List Char
  data : List Nat
deriving DecidableEq, Repr

/-- Everything observable about one producer invocation: the `PutRecord`
calls attempted in order, the `console.log('Producer sent:', event)` lines
emitted, and the handler's resulting promise. -/
structure ProducerOutcome where
  calls : List PutRecordCall
  logs : List (List Char × MessageEvent)
  result : Except PublishError Unit
deriving Repr

/-- The fixed prefix string of the producer's success log line. -/
def sentTag : List Char := ['P', 'r', 'o', 'd', 'u', 'c', 'e', 'r', ' ', 's', 'e', 'n', 't', ':']

/-- The producer handler.  `streamName` is `process.env.STREAM_NAME`, `now`
is what `Date.now()` returns for this invocation, and `sendOutcome` is the
external log service's response to the single `PutRecord` call.  The
handler constructs `{ message: 'Hello', time: now }`, attempts exactly one
append with the JSON-serialized payload, and on success logs the event; if
the awaited call rejects, the error propagates and the log line is never
reached.  There is no retry. -/
def producerHandler (streamName : List Char) (now : Int)
    (sendOutcome : Except PublishError Unit) : ProducerOutcome :=
  let event : MessageEvent := ⟨['H', 'e', 'l', 'l', 'o'], now⟩
  let call : PutRecordCall := ⟨streamName, ['k', 'e', 'y', '-', '1'], producerEncode event⟩
  match sendOutcome with
  | Except.ok _ => ⟨[call], [(sentTag, event)], Except.ok ()⟩
  | Except.error e => ⟨[call], [], Except.error e⟩

/-! ## Consumer handler (packages/infra/consumer/lambda/index.ts) -/

/-- Everything observable about one consumer invocation: the
`console.log('Consumer received:', message)` lines in emission order and
the handler's resulting promise (the decode error that escaped the loop,
if any). -/
structure ConsumerOutcome where
  logs : List (List Char × Json)
  result : Except DecodeError Unit
deriving Repr

/-- The fixed prefix string of the consumer's per-record log line. -/
def recvTag : List Char :=
  ['C', 'o', 'n', 's', 'u', 'm', 'e', 'r', ' ', 'r', 'e', 'c', 'e', 'i', 'v', 'e', 'd', ':']

/-- The consumer handler: `for (const record of event.Records)` decodes and
logs each record in delivery order.  The loop body is synchronous, so the
iterations are strictly sequential; a record whose payload fails to parse
makes `JSON.parse` throw, ending the loop - later records are not touched
and their log lines are never emitted. -/
def onBatch : List (List Char) → ConsumerOutcome
  | [] => ⟨[], Except.ok ()⟩
  | r :: rs =>
    match consumerDecode r with
    | Except.ok j =>
      let o := onBatch rs
      ⟨(recvTag, j) :: o.logs, o.result⟩
    | Except.error e => ⟨[], Except.error e⟩

/-- Whether a record decodes successfully (used to phrase batch claims). -/
def decodeOk (r : List Char) : Bool :=
  match consumerDecode r with
  | Except.ok _ => true
  | Except.error _ => false

/-- The decoded value of a record, defaulting to `Json.null` (only used
under a `decodeOk` hypothesis). -/
def decodedOr (r : List Char) : Json :=
  match consumerDecode r with
  | Except.ok j => j
  | Except.error _ => Json.null

/-- The decode error of a record, defaulting to `MalformedPayload` (only
used under a failing-record hypothesis). -/
def errOf (r : List Char) : DecodeError :=
  match consumerDecode r with
  | Except.error e => e
  | Except.ok _ => DecodeError.MalformedPayload

/-- The Kinesis message of the fixed end-to-end scenario: payload `Hello`
at wall-clock time 1700000000000. -/
def helloEvent : MessageEvent := ⟨['H', 'e', 'l', 'l', 'o'], 1700000000000⟩

/-- A transported record whose payload is the well-formed document `{}`. -/
def sampleGoodA : List Char := base64Encode (utf8Encode ['\x7b', '\x7d'])

/-- A transported record whose payload is the well-formed document `3`. -/
def sampleGoodB : List Char := base64Encode (utf8Encode ['3'])

/-- A transported record whose payload, `x`, is not valid JSON. -/
def sampleBad : List Char := base64Encode (utf8Encode ['x'])

/-! ## Auxiliary measures and predicates used by the correctness lemmas -/

/-- One step of the decimal accumulator of `parseDigitsAcc`, as a named
function for the fold lemmas. -/
def digAccStep (acc : Nat) (c : Char) : Nat := acc * 10 + (c.toNat - 48)

/-- Whether a list does not start with a decimal digit (the condition under
which a number literal parse stops exactly at a list boundary). -/
def nondigitHead : List Char → Bool
  | [] => true
  | c :: _ => !c.isDigit

mutual

/-- Fuel sufficient for `parseV` to parse the serialization of a value. -/
def fuelV : Json → Nat
  | .arr [] => 1
  | .arr (x :: xs) => 1 + fuelElems x xs
  | .obj [] => 1
  | .obj (m :: ms) => 1 + fuelMembers m ms
  | _ => 1
termination_by j => sizeOf j
decreasing_by all_goals (simp_wf; try omega)

/-- Fuel sufficient for `parseElems` on a serialized element list. -/
def fuelElems : Json → List Json → Nat
  | x, [] => 1 + fuelV x
  | x, y :: ys => 1 + max (fuelV x) (fuelElems y ys)
termination_by x xs => sizeOf x + sizeOf xs
decreasing_by all_goals (simp_wf; try omega)

/-- Fuel sufficient for `parseMembers` on a serialized member list. -/
def fuelMembers : (List Char × Json) → List (List Char × Json) → Nat
  | (_, v), [] => 1 + fuelV v
  | (_, v), m :: ms => 1 + max (fuelV v) (fuelMembers m ms)
termination_by m ms => sizeOf m + sizeOf ms
decreasing_by all_goals (simp_wf; try omega)

end

/-! ## Basic character lemmas -/

/-- Characters with equal scalar values are equal. -/
theorem char_toNat_inj {a b : Char} (h : a.toNat = b.toNat) : a = b := by
  rw [← Char.ofNat_toNat a, h, Char.ofNat_toNat]

/-- The scalar value of `Char.ofNat` of a valid scalar value. -/
theorem char_toNat_ofNat {n : Nat} (h : n.isValidChar) : (Char.ofNat n).toNat = n := by
  rcases h with h1 | ⟨h2a, h2b⟩ <;>
    simp [Char.ofNat, Nat.isValidChar, *, Char.ofNatAux, Char.toNat, UInt32.toNat,
      BitVec.toNat_ofNat] <;> omega

/-- Scalar values below the surrogate range are valid. -/
theorem isValidChar_of_lt {n : Nat} (h : n < 0xd800) : n.isValidChar := Or.inl h

/-- Digit characters have scalar values between 48 and 57. -/
theorem isDigit_bounds {c : Char} (h : c.isDigit = true) : 48 ≤ c.toNat ∧ c.toNat ≤ 57 := by
  have h2 : (48 : UInt32) ≤ c.val ∧ c.val ≤ 57 := by simpa [Char.isDigit] using h
  exact ⟨by exact_mod_cast h2.1, by exact_mod_cast h2.2⟩

/-- Characters with scalar values between 48 and 57 are digits. -/
theorem isDigit_of_bounds {c : Char} (h1 : 48 ≤ c.toNat) (h2 : c.toNat ≤ 57) :
    c.isDigit = true := by
  simp only [Char.isDigit, Bool.and_eq_true, decide_eq_true_eq, ge_iff_le]
  exact ⟨by exact_mod_cast h1, by exact_mod_cast h2⟩

/-- The decimal digit character of a value below ten, as a scalar value. -/
theorem digitChar10_toNat {n : Nat} (h : n < 10) : (digitChar10 n).toNat = 48 + n := by
  unfold digitChar10
  exact char_toNat_ofNat (isValidChar_of_lt (by omega))

/-- Decimal digit characters are digits. -/
theorem digitChar10_isDigit {n : Nat} (h : n < 10) : (digitChar10 n).isDigit = true := by
  have := digitChar10_toNat h
  exact isDigit_of_bounds (by omega) (by omega)

/-- A digit character is none of the JSON structural characters that
dispatch `parseV` away from the number branch, and is not whitespace. -/
theorem digit_not_special {c : Char} (h : c.isDigit = true) :
    c ≠ '"' ∧ c ≠ '[' ∧ c ≠ '\x7b' ∧ c ≠ 'n' ∧ c ≠ 't' ∧ c ≠ 'f' ∧ c ≠ '-' ∧
      c ≠ ']' ∧ c ≠ '\x7d' ∧ c ≠ ',' ∧ c ≠ ':' ∧ isWsChar c = false := by
  simp only [isWsChar, Bool.or_eq_false_iff, decide_eq_false_iff_not]
  repeat' apply And.intro
  all_goals (intro hc; subst hc; simp at h)

/-! ## String-literal parsing round-trip -/

/-- Hex digits emitted by the serializer decode to their value. -/
theorem hexVal_hexChar {m : Nat} (h : m < 16) : hexVal (hexChar m) = some m := by
  by_cases h10 : m < 10
  · have ht : (hexChar m).toNat = 48 + m := by
      unfold hexChar; rw [if_pos h10]; exact char_toNat_ofNat (isValidChar_of_lt (by omega))
    unfold hexVal
    rw [ht, if_pos (by omega)]
    congr 1
    omega
  · have ht : (hexChar m).toNat = 87 + m := by
      unfold hexChar; rw [if_neg h10]; exact char_toNat_ofNat (isValidChar_of_lt (by omega))
    unfold hexVal
    rw [ht, if_neg (by omega), if_pos (by omega)]
    congr 1
    omega

/-- A closing quote ends the string body. -/
theorem parseStr_quote (rest : List Char) : parseStr ('"' :: rest) = some ([], rest) := by
  rw [parseStr]
  simp

/-- An ordinary character is consumed literally. -/
theorem parseStr_lit {c : Char} (h1 : c ≠ '"') (h2 : c ≠ '\\') (h3 : 32 ≤ c.toNat)
    (rest : List Char) :
    parseStr (c :: rest) = (parseStr rest).map fun p => (c :: p.1, p.2) := by
  rw [parseStr, if_neg h1, if_neg h2, if_neg (by omega)]

/-- The two-character escapes decode to their character. -/
theorem parseStr_esc_quote (r : List Char) :
    parseStr ('\\' :: '"' :: r) = (parseStr r).map fun p => ('"' :: p.1, p.2) := by
  rw [parseStr, parseEsc]
  simp

/-- Backslash escape. -/
theorem parseStr_esc_bs (r : List Char) :
    parseStr ('\\' :: '\\' :: r) = (parseStr r).map fun p => ('\\' :: p.1, p.2) := by
  rw [parseStr, parseEsc]
  simp

/-- Backspace escape. -/
theorem parseStr_esc_b (r : List Char) :
    parseStr ('\\' :: 'b' :: r) = (parseStr r).map fun p => ('\x08' :: p.1, p.2) := by
  rw [parseStr, parseEsc]
  simp

/-- Tab escape. -/
theorem parseStr_esc_t (r : List Char) :
    parseStr ('\\' :: 't' :: r) = (parseStr r).map fun p => ('\x09' :: p.1, p.2) := by
  rw [parseStr, parseEsc]
  simp

/-- Newline escape. -/
theorem parseStr_esc_n (r : List Char) :
    parseStr ('\\' :: 'n' :: r) = (parseStr r).map fun p => ('\x0a' :: p.1, p.2) := by
  rw [parseStr, parseEsc]
  simp

/-- Form-feed escape. -/
theorem parseStr_esc_f (r : List Char) :
    parseStr ('\\' :: 'f' :: r) = (parseStr r).map fun p => ('\x0c' :: p.1, p.2) := by
  rw [parseStr, parseEsc]
  simp

/-- Carriage-return escape. -/
theorem parseStr_esc_r (r : List Char) :
    parseStr ('\\' :: 'r' :: r) = (parseStr r).map fun p => ('\x0d' :: p.1, p.2) := by
  rw [parseStr, parseEsc]
  simp

/-- Unicode escape with valid hex digits and a valid scalar value. -/
theorem parseStr_esc_u {a b c2 d : Char} {va vb vc vd : Nat}
    (ha : hexVal a = some va) (hb : hexVal b = some vb) (hc : hexVal c2 = some vc)
    (hd : hexVal d = some vd) (hv : (va * 4096 + vb * 256 + vc * 16 + vd).isValidChar)
    (r2 : List Char) :
    parseStr ('\\' :: 'u' :: a :: b :: c2 :: d :: r2) =
      (parseStr r2).map fun p => (Char.ofNat (va * 4096 + vb * 256 + vc * 16 + vd) :: p.1, p.2) := by
  rw [parseStr, parseEsc, parseEscU]
  simp [ha, hb, hc, hd, hv]

/-- Round-trip of the string escaper: parsing an escaped string body up to
its closing quote recovers the original characters. -/
theorem parseStr_escape (s rest : List Char) :
    parseStr (escapeString s ++ '"' :: rest) = some (s, rest) := by
  induction s with
  | nil => simp [escapeString, parseStr_quote]
  | cons c s ih =>
    have hesc : escapeString (c :: s) = escapeChar c ++ escapeString s := by
      simp [escapeString]
    rw [hesc, List.append_assoc]
    by_cases h1 : c = '"'
    · subst h1
      rw [show escapeChar '"' = ['\\', '"'] by simp [escapeChar]]
      simp [parseStr_esc_quote, ih]
    by_cases h2 : c = '\\'
    · subst h2
      rw [show escapeChar '\\' = ['\\', '\\'] by simp [escapeChar]]
      simp [parseStr_esc_bs, ih]
    by_cases h3 : c = '\x08'
    · subst h3
      rw [show escapeChar '\x08' = ['\\', 'b'] by simp [escapeChar]]
      simp [parseStr_esc_b, ih]
    by_cases h4 : c = '\x09'
    · subst h4
      rw [show escapeChar '\x09' = ['\\', 't'] by simp [escapeChar]]
      simp [parseStr_esc_t, ih]
    by_cases h5 : c = '\x0a'
    · subst h5
      rw [show escapeChar '\x0a' = ['\\', 'n'] by simp [escapeChar]]
      simp [parseStr_esc_n, ih]
    by_cases h6 : c = '\x0c'
    · subst h6
      rw [show escapeChar '\x0c' = ['\\', 'f'] by simp [escapeChar]]
      simp [parseStr_esc_f, ih]
    by_cases h7 : c = '\x0d'
    · subst h7
      rw [show escapeChar '\x0d' = ['\\', 'r'] by simp [escapeChar]]
      simp [parseStr_esc_r, ih]
    by_cases hctl : c.toNat < 32
    · rw [show escapeChar c =
          ['\\', 'u', '0', '0', hexChar (c.toNat / 16), hexChar (c.toNat % 16)] by
        simp [escapeChar, h1, h2, h3, h4, h5, h6, h7, hctl]]
      have hzero : hexVal '0' = some 0 := by decide
      have hhi : hexVal (hexChar (c.toNat / 16)) = some (c.toNat / 16) :=
        hexVal_hexChar (by omega)
      have hlo : hexVal (hexChar (c.toNat % 16)) = some (c.toNat % 16) :=
        hexVal_hexChar (by omega)
      have hn : 0 * 4096 + 0 * 256 + c.toNat / 16 * 16 + c.toNat % 16 = c.toNat := by omega
      have hv : (0 * 4096 + 0 * 256 + c.toNat / 16 * 16 + c.toNat % 16).isValidChar := by
        rw [hn]; exact isValidChar_of_lt (by omega)
      have := parseStr_esc_u hzero hzero hhi hlo hv (escapeString s ++ '"' :: rest)
      simp only [List.cons_append, List.nil_append] at this ⊢
      rw [this, ih]
      have hn2 : c.toNat / 16 * 16 + c.toNat % 16 = c.toNat := by omega
      simp [hn, hn2, Char.ofNat_toNat]
    · rw [show escapeChar c = [c] by simp [escapeChar, h1, h2, h3, h4, h5, h6, h7, hctl]]
      simp only [List.cons_append, List.nil_append]
      rw [parseStr_lit h1 h2 (by omega), ih]
      rfl

/-! ## Number parsing round-trip -/

/-- Every character emitted by `natDigits` is a decimal digit. -/
theorem natDigits_digits (n : Nat) : ∀ c ∈ natDigits n, c.isDigit = true := by
  induction n using Nat.strong_induction_on with
  | _ n ih =>
    by_cases h : n < 10
    · rw [natDigits, dif_pos h]
      intro c hc
      simp at hc
      subst hc
      exact digitChar10_isDigit h
    · rw [natDigits, dif_neg h]
      intro c hc
      rcases List.mem_append.mp hc with hm | hm
      · exact ih (n / 10) (by omega) c hm
      · simp at hm
        subst hm
        exact digitChar10_isDigit (by omega)

/-- Scanning digits past a digit block accumulates it into the fold. -/
theorem parseDigitsAcc_append (ds : List Char) (hds : ∀ c ∈ ds, c.isDigit = true)
    (acc : Nat) (rest : List Char) :
    parseDigitsAcc acc (ds ++ rest) = parseDigitsAcc (ds.foldl digAccStep acc) rest := by
  induction ds generalizing acc with
  | nil => simp
  | cons c cs ih =>
    have hc : c.isDigit = true := hds c (by simp)
    rw [List.cons_append, parseDigitsAcc, if_pos hc, List.foldl_cons]
    exact ih (fun x hx => hds x (by simp [hx])) _

/-- Digit scanning stops at a non-digit boundary. -/
theorem parseDigitsAcc_stop (acc : Nat) (rest : List Char) (h : nondigitHead rest = true) :
    parseDigitsAcc acc rest = (acc, rest) := by
  cases rest with
  | nil => rfl
  | cons c cs =>
    simp [nondigitHead] at h
    rw [parseDigitsAcc, if_neg (by simp [h])]

/-- Folding the accumulator over the digits of `n` appends `n` in decimal. -/
theorem foldl_natDigits (n : Nat) :
    ∀ acc, (natDigits n).foldl digAccStep acc = acc * 10 ^ (natDigits n).length + n := by
  induction n using Nat.strong_induction_on with
  | _ n ih =>
    intro acc
    by_cases h : n < 10
    · rw [natDigits, dif_pos h]
      simp [digAccStep, digitChar10_toNat h]
    · rw [natDigits, dif_neg h, List.foldl_append, ih (n / 10) (by omega) acc]
      simp [digAccStep, digitChar10_toNat (show n % 10 < 10 by omega), List.length_append]
      calc (acc * 10 ^ (natDigits (n / 10)).length + n / 10) * 10 + (n % 10)
          = acc * (10 ^ (natDigits (n / 10)).length * 10) + (n / 10 * 10 + n % 10) := by ring
        _ = acc * 10 ^ ((natDigits (n / 10)).length + 1) + n := by
            rw [← pow_succ, show n / 10 * 10 + n % 10 = n by omega]

/-- The digit list of a positive number starts with a nonzero digit; in
general it starts with a digit. -/
theorem natDigits_head (n : Nat) :
    ∃ c cs, natDigits n = c :: cs ∧ c.isDigit = true ∧ (1 ≤ n → c ≠ '0') := by
  induction n using Nat.strong_induction_on with
  | _ n ih =>
    by_cases h : n < 10
    · refine ⟨digitChar10 n, [], by rw [natDigits, dif_pos h], digitChar10_isDigit h, ?_⟩
      intro hn hc
      have := digitChar10_toNat h
      rw [hc] at this
      simp at this
      omega
    · obtain ⟨c, cs, heq, hdig, hz⟩ := ih (n / 10) (by omega)
      refine ⟨c, cs ++ [digitChar10 (n % 10)], ?_, hdig, fun _ => hz (by omega)⟩
      rw [natDigits, dif_neg h, heq]
      simp

/-- Parsing the decimal rendering of a natural number yields that number
when the following text does not begin with a digit. -/
theorem parseNatLit_natDigits (n : Nat) (rest : List Char) (h : nondigitHead rest = true) :
    parseNatLit (natDigits n ++ rest) = some (n, rest) := by
  rcases Nat.eq_zero_or_pos n with hn | hn
  · subst hn
    rw [show natDigits 0 = ['0'] by rw [natDigits]; rfl]
    rw [List.cons_append, parseNatLit, if_pos rfl]
    simp
  · obtain ⟨c, cs, heq, hdig, hz⟩ := natDigits_head n
    have hne : c ≠ '0' := hz hn
    rw [heq, List.cons_append, parseNatLit, if_neg hne, if_pos hdig]
    have hcs : ∀ x ∈ cs, x.isDigit = true := by
      intro x hx
      exact natDigits_digits n x (by rw [heq]; simp [hx])
    rw [parseDigitsAcc_append cs hcs _ rest, parseDigitsAcc_stop _ _ h]
    have : (c :: cs).foldl digAccStep 0 = 0 * 10 ^ (natDigits n).length + n := by
      rw [← heq]
      exact foldl_natDigits n 0
    simp only [List.foldl_cons, digAccStep, Nat.zero_mul, Nat.zero_add] at this
    rw [this]

/-- Parsing the decimal rendering of an integer yields that integer. -/
theorem parseNum_intToDec (t : Int) (rest : List Char) (h : nondigitHead rest = true) :
    parseNum (intToDec t ++ rest) = some (Json.num t, rest) := by
  by_cases ht : t < 0
  · rw [intToDec, if_pos ht, List.cons_append, parseNum]
    rw [show headIs '-' ('-' :: (natDigits (-t).toNat ++ rest)) = true by simp [headIs]]
    simp only [if_pos]
    rw [show ('-' :: (natDigits (-t).toNat ++ rest)).tail = natDigits (-t).toNat ++ rest from rfl]
    rw [parseNatLit_natDigits _ rest h]
    simp
    omega
  · rw [intToDec, if_neg ht, parseNum]
    obtain ⟨c, cs, heq, hdig, _⟩ := natDigits_head t.toNat
    rw [heq, List.cons_append]
    have hne : c ≠ '-' := (digit_not_special hdig).2.2.2.2.2.2.1
    rw [show headIs '-' (c :: (cs ++ rest)) = false by simp [headIs, hne]]
    simp only [Bool.false_eq_true, if_false, ← List.cons_append, ← heq]
    rw [parseNatLit_natDigits _ rest h]
    simp
    omega

/-! ## Parser dispatch lemmas -/

/-- Skipping whitespace leaves a non-whitespace-headed list unchanged. -/
theorem skipWs_cons_nonws {c : Char} (h : isWsChar c = false) (rest : List Char) :
    skipWs (c :: rest) = c :: rest := by
  rw [skipWs, if_neg (by simp [h])]

/-- Unfolding of `parseV` on a non-whitespace head. -/
theorem parseV_cons_eq (f : Nat) (c : Char) (r : List Char) (hnws : isWsChar c = false) :
    parseV (f + 1) (c :: r) =
      if c = '"' then (parseStr r).map fun p => (Json.str p.1, p.2)
      else if c = '[' then
        if headIs ']' (skipWs r) then some (Json.arr [], (skipWs r).tail)
        else (parseElems f (skipWs r)).map fun p => (Json.arr p.1, p.2)
      else if c = '\x7b' then
        if headIs '\x7d' (skipWs r) then some (Json.obj [], (skipWs r).tail)
        else (parseMembers f (skipWs r)).map fun p => (Json.obj p.1, p.2)
      else if c = 'n' then (expectChars ['u', 'l', 'l'] r).map fun r2 => (Json.null, r2)
      else if c = 't' then (expectChars ['r', 'u', 'e'] r).map fun r2 => (Json.bool true, r2)
      else if c = 'f' then (expectChars ['a', 'l', 's', 'e'] r).map fun r2 => (Json.bool false, r2)
      else parseNum (c :: r) := by
  rw [parseV, skipWs_cons_nonws hnws]

/-- A value whose serialization starts with a digit or a minus sign parses
through the number branch. -/
theorem parseV_num (f : Nat) (t : Int) (rest : List Char) (hr : nondigitHead rest = true) :
    parseV (f + 1) (intToDec t ++ rest) = some (Json.num t, rest) := by
  have hhead : ∃ c cs, intToDec t = c :: cs ∧ (c = '-' ∨ c.isDigit = true) := by
    unfold intToDec
    by_cases ht : t < 0
    · rw [if_pos ht]
      exact ⟨'-', _, rfl, Or.inl rfl⟩
    · rw [if_neg ht]
      obtain ⟨c, cs, heq, hdig, _⟩ := natDigits_head t.toNat
      exact ⟨c, cs, heq, Or.inr hdig⟩
  obtain ⟨c, cs, heq, hc⟩ := hhead
  have hnws : isWsChar c = false := by
    rcases hc with rfl | hdig
    · decide
    · exact (digit_not_special hdig).2.2.2.2.2.2.2.2.2.2.2
  have hns : c ≠ '"' ∧ c ≠ '[' ∧ c ≠ '\x7b' ∧ c ≠ 'n' ∧ c ≠ 't' ∧ c ≠ 'f' := by
    rcases hc with rfl | hdig
    · exact ⟨by decide, by decide, by decide, by decide, by decide, by decide⟩
    · obtain ⟨a1, a2, a3, a4, a5, a6, _⟩ := digit_not_special hdig
      exact ⟨a1, a2, a3, a4, a5, a6⟩
  rw [heq, List.cons_append, parseV_cons_eq f c (cs ++ rest) hnws]
  rw [if_neg hns.1, if_neg hns.2.1, if_neg hns.2.2.1, if_neg hns.2.2.2.1,
    if_neg hns.2.2.2.2.1, if_neg hns.2.2.2.2.2]
  rw [← List.cons_append, ← heq]
  exact parseNum_intToDec t rest hr

/-- The fuel bound of a value is positive. -/
theorem fuelV_pos (j : Json) : 1 ≤ fuelV j := by
  cases j with
  | arr xs => cases xs <;> simp [fuelV]
  | obj ms => cases ms <;> simp [fuelV]
  | _ => simp [fuelV]

/-- The fuel bound of an element list is positive. -/
theorem fuelElems_pos (x : Json) (xs : List Json) : 1 ≤ fuelElems x xs := by
  cases xs <;> simp [fuelElems]

/-- The fuel bound of a member list is positive. -/
theorem fuelMembers_pos (m : List Char × Json) (ms : List (List Char × Json)) :
    1 ≤ fuelMembers m ms := by
  obtain ⟨k, v⟩ := m
  cases ms <;> simp [fuelMembers]

/-- Every serialized value starts with a character that is not whitespace
and none of the closing or separator characters. -/
theorem stringify_head (j : Json) :
    ∃ c cs, stringify j = c :: cs ∧ isWsChar c = false ∧ c ≠ ']' ∧ c ≠ '\x7d' ∧
      c ≠ ',' ∧ c ≠ ':' := by
  cases j with
  | null => exact ⟨'n', _, by rw [stringify], by decide, by decide, by decide, by decide, by decide⟩
  | bool b =>
    cases b with
    | true =>
      exact ⟨'t', ['r', 'u', 'e'], by rw [stringify]; rfl, by decide, by decide, by decide,
        by decide, by decide⟩
    | false =>
      exact ⟨'f', ['a', 'l', 's', 'e'], by rw [stringify]; rfl, by decide, by decide, by decide,
        by decide, by decide⟩
  | num t =>
    have hhead : ∃ c cs, intToDec t = c :: cs ∧ (c = '-' ∨ c.isDigit = true) := by
      unfold intToDec
      by_cases ht : t < 0
      · rw [if_pos ht]
        exact ⟨'-', _, rfl, Or.inl rfl⟩
      · rw [if_neg ht]
        obtain ⟨c, cs, heq, hdig, _⟩ := natDigits_head t.toNat
        exact ⟨c, cs, heq, Or.inr hdig⟩
    obtain ⟨c, cs, heq, hc⟩ := hhead
    refine ⟨c, cs, by rw [stringify]; exact heq, ?_, ?_, ?_, ?_, ?_⟩ <;>
      rcases hc with rfl | hdig
    · decide
    · exact (digit_not_special hdig).2.2.2.2.2.2.2.2.2.2.2
    · decide
    · exact (digit_not_special hdig).2.2.2.2.2.2.2.1
    · decide
    · exact (digit_not_special hdig).2.2.2.2.2.2.2.2.1
    · decide
    · exact (digit_not_special hdig).2.2.2.2.2.2.2.2.2.1
    · decide
    · exact (digit_not_special hdig).2.2.2.2.2.2.2.2.2.2.1
  | str s =>
    exact ⟨'"', _, by rw [stringify], by decide, by decide, by decide, by decide, by decide⟩
  | arr xs =>
    cases xs with
    | nil => exact ⟨'[', _, by rw [stringify], by decide, by decide, by decide, by decide, by decide⟩
    | cons x xt =>
      exact ⟨'[', _, by rw [stringify], by decide, by decide, by decide, by decide, by decide⟩
  | obj ms =>
    cases ms with
    | nil =>
      exact ⟨'\x7b', _, by rw [stringify], by decide, by decide, by decide, by decide, by decide⟩
    | cons m mt =>
      exact ⟨'\x7b', _, by rw [stringify], by decide, by decide, by decide, by decide, by decide⟩

/-- Unfolding of `parseMembers` on a non-whitespace head. -/
theorem parseMembers_cons_eq (f : Nat) (c : Char) (r : List Char) (hnws : isWsChar c = false) :
    parseMembers (f + 1) (c :: r) =
      if c = '"' then
        match parseStr r with
        | none => none
        | some (k, r1) =>
          if headIs ':' (skipWs r1) then
            match parseV f (skipWs r1).tail with
            | none => none
            | some (j, r3) =>
              if headIs ',' (skipWs r3) then
                (parseMembers f (skipWs r3).tail).map fun p => ((k, j) :: p.1, p.2)
              else if headIs '\x7d' (skipWs r3) then some ([(k, j)], (skipWs r3).tail)
              else none
          else none
      else none := by
  rw [parseMembers, skipWs_cons_nonws hnws]

/-- Master round-trip lemma, by strong induction on a size bound: the
parser consumes exactly the serialization of a value, of a nonempty element
list, and of a nonempty member list. -/
theorem roundtrip_main (n : Nat) :
    (∀ j : Json, sizeOf j ≤ n → ∀ f, fuelV j ≤ f → ∀ rest, nondigitHead rest = true →
      parseV f (stringify j ++ rest) = some (j, rest)) ∧
    (∀ (x : Json) (xs : List Json), sizeOf x + sizeOf xs ≤ n → ∀ f, fuelElems x xs ≤ f →
      ∀ rest, parseElems f (stringifyElems x xs ++ ']' :: rest) = some (x :: xs, rest)) ∧
    (∀ (k : List Char) (v : Json) (ms : List (List Char × Json)), sizeOf v + sizeOf ms ≤ n →
      ∀ f, fuelMembers (k, v) ms ≤ f → ∀ rest,
      parseMembers f (stringifyMembers (k, v) ms ++ '\x7d' :: rest) = some ((k, v) :: ms, rest)) := by
  induction n using Nat.strong_induction_on with
  | _ n ih =>
    refine ⟨?_, ?_, ?_⟩
    · intro j hsz f hf rest hr
      obtain ⟨f0, rfl⟩ : ∃ f0, f = f0 + 1 := by
        have := fuelV_pos j
        cases f
        · omega
        · exact ⟨_, rfl⟩
      cases j with
      | null =>
        rw [show stringify Json.null ++ rest = 'n' :: ('u' :: 'l' :: 'l' :: rest) by
          rw [stringify]; rfl]
        rw [parseV_cons_eq f0 _ _ (by decide)]
        simp [expectChars]
      | bool b =>
        cases b with
        | false =>
          rw [show stringify (Json.bool false) ++ rest
              = 'f' :: ('a' :: 'l' :: 's' :: 'e' :: rest) by rw [stringify]; rfl]
          rw [parseV_cons_eq f0 _ _ (by decide)]
          simp [expectChars]
        | true =>
          rw [show stringify (Json.bool true) ++ rest = 't' :: ('r' :: 'u' :: 'e' :: rest) by
            rw [stringify]; rfl]
          rw [parseV_cons_eq f0 _ _ (by decide)]
          simp [expectChars]
      | num t =>
        rw [show stringify (Json.num t) = intToDec t by rw [stringify]]
        exact parseV_num f0 t rest hr
      | str s =>
        rw [show stringify (Json.str s) ++ rest = '"' :: (escapeString s ++ '"' :: rest) by
          rw [stringify]; simp]
        rw [parseV_cons_eq f0 _ _ (by decide)]
        simp [parseStr_escape]
      | arr xs =>
        cases xs with
        | nil =>
          rw [show stringify (Json.arr []) ++ rest = '[' :: (']' :: rest) by
            rw [stringify]; rfl]
          rw [parseV_cons_eq f0 _ _ (by decide)]
          simp [skipWs_cons_nonws (show isWsChar ']' = false by decide), headIs]
        | cons x xt =>
          rw [show stringify (Json.arr (x :: xt)) ++ rest
              = '[' :: (stringifyElems x xt ++ ']' :: rest) by rw [stringify]; simp]
          rw [parseV_cons_eq f0 _ _ (by decide)]
          obtain ⟨c, cs, heq, hnws, hne1, _, _, _⟩ := stringify_head x
          obtain ⟨u, hu⟩ : ∃ u, stringifyElems x xt = stringify x ++ u := by
            cases xt with
            | nil => exact ⟨[], by rw [stringifyElems, List.append_nil]⟩
            | cons y ys => exact ⟨_, by rw [stringifyElems]⟩
          have hshape : stringifyElems x xt ++ ']' :: rest = c :: (cs ++ (u ++ ']' :: rest)) := by
            rw [hu, heq]
            simp
          rw [hshape, skipWs_cons_nonws hnws, ← hshape]
          have hfe : fuelElems x xt ≤ f0 := by
            rw [show fuelV (Json.arr (x :: xt)) = 1 + fuelElems x xt by rw [fuelV]] at hf
            omega
          have hlt : sizeOf x + sizeOf xt < n := by
            simp at hsz
            omega
          rw [(ih _ hlt).2.1 x xt le_rfl f0 hfe rest]
          have hhd : headIs ']' (c :: (cs ++ (u ++ ']' :: rest))) = false := by
            simp [headIs, hne1]
          rw [hshape, hhd]
          simp
      | obj ms =>
        cases ms with
        | nil =>
          rw [show stringify (Json.obj []) ++ rest = '\x7b' :: ('\x7d' :: rest) by
            rw [stringify]; rfl]
          rw [parseV_cons_eq f0 _ _ (by decide)]
          simp [skipWs_cons_nonws (show isWsChar '\x7d' = false by decide), headIs]
        | cons m mt =>
          obtain ⟨k, v⟩ := m
          rw [show stringify (Json.obj ((k, v) :: mt)) ++ rest
              = '\x7b' :: (stringifyMembers (k, v) mt ++ '\x7d' :: rest) by rw [stringify]; simp]
          rw [parseV_cons_eq f0 _ _ (by decide)]
          obtain ⟨u, hu⟩ : ∃ u, stringifyMembers (k, v) mt = '"' :: u := by
            cases mt with
            | nil => exact ⟨_, by rw [stringifyMembers]⟩
            | cons m2 ms2 =>
              exact ⟨(escapeString k ++ '"' :: ':' :: stringify v) ++
                  ',' :: stringifyMembers m2 ms2,
                by rw [stringifyMembers]; simp⟩
          have hshape : stringifyMembers (k, v) mt ++ '\x7d' :: rest
              = '"' :: (u ++ '\x7d' :: rest) := by
            rw [hu]
            simp
          rw [hshape, skipWs_cons_nonws (by decide), ← hshape]
          have hfm : fuelMembers (k, v) mt ≤ f0 := by
            rw [show fuelV (Json.obj ((k, v) :: mt)) = 1 + fuelMembers (k, v) mt by
              rw [fuelV]] at hf
            omega
          have hlt : sizeOf v + sizeOf mt < n := by
            simp at hsz
            omega
          rw [(ih _ hlt).2.2 k v mt le_rfl f0 hfm rest]
          have hhd : headIs '\x7d' ('"' :: (u ++ '\x7d' :: rest)) = false := by
            simp [headIs]
          rw [hshape, hhd]
          simp
    · intro x xs hsz f hf rest
      obtain ⟨f0, rfl⟩ : ∃ f0, f = f0 + 1 := by
        have := fuelElems_pos x xs
        cases f
        · omega
        · exact ⟨_, rfl⟩
      rw [parseElems]
      cases xs with
      | nil =>
        rw [show stringifyElems x [] = stringify x by rw [stringifyElems]]
        have hfv : fuelV x ≤ f0 := by
          rw [show fuelElems x [] = 1 + fuelV x by rw [fuelElems]] at hf
          omega
        have hlt : sizeOf x < n := by
          simp at hsz
          omega
        rw [(ih _ hlt).1 x le_rfl f0 hfv (']' :: rest) (by simp [nondigitHead])]
        simp [skipWs_cons_nonws (show isWsChar ']' = false by decide), headIs]
      | cons y ys =>
        rw [show stringifyElems x (y :: ys) ++ ']' :: rest
            = stringify x ++ (',' :: (stringifyElems y ys ++ ']' :: rest)) by
          rw [stringifyElems]; simp]
        have hfv : fuelV x ≤ f0 := by
          rw [show fuelElems x (y :: ys) = 1 + max (fuelV x) (fuelElems y ys) by
            rw [fuelElems]] at hf
          omega
        have hltx : sizeOf x < n := by
          simp at hsz
          omega
        rw [(ih _ hltx).1 x le_rfl f0 hfv _ (by simp [nondigitHead])]
        have hfe : fuelElems y ys ≤ f0 := by
          rw [show fuelElems x (y :: ys) = 1 + max (fuelV x) (fuelElems y ys) by
            rw [fuelElems]] at hf
          omega
        simp only [skipWs_cons_nonws (show isWsChar ',' = false by decide)]
        rw [show headIs ',' (',' :: (stringifyElems y ys ++ ']' :: rest)) = true by
          simp [headIs]]
        simp only [if_true, List.tail_cons]
        have hlt : sizeOf y + sizeOf ys < n := by
          simp at hsz
          omega
        rw [(ih _ hlt).2.1 y ys le_rfl f0 hfe rest]
        simp
    · intro k v ms hsz f hf rest
      obtain ⟨f0, rfl⟩ : ∃ f0, f = f0 + 1 := by
        have := fuelMembers_pos (k, v) ms
        cases f
        · omega
        · exact ⟨_, rfl⟩
      cases ms with
      | nil =>
        rw [show stringifyMembers (k, v) [] ++ '\x7d' :: rest
            = '"' :: (escapeString k ++ '"' :: (':' :: (stringify v ++ '\x7d' :: rest))) by
          rw [stringifyMembers]; simp]
        rw [parseMembers_cons_eq f0 _ _ (by decide), if_pos rfl]
        rw [parseStr_escape k (':' :: (stringify v ++ '\x7d' :: rest))]
        have hfv : fuelV v ≤ f0 := by
          rw [show fuelMembers (k, v) [] = 1 + fuelV v by rw [fuelMembers]] at hf
          omega
        simp only [skipWs_cons_nonws (show isWsChar ':' = false by decide)]
        rw [show headIs ':' (':' :: (stringify v ++ '\x7d' :: rest)) = true by simp [headIs]]
        simp only [if_true, List.tail_cons]
        have hlt : sizeOf v < n := by
          simp at hsz
          omega
        rw [(ih _ hlt).1 v le_rfl f0 hfv _ (by simp [nondigitHead])]
        simp [skipWs_cons_nonws (show isWsChar '\x7d' = false by decide), headIs]
      | cons m2 ms2 =>
        rw [show stringifyMembers (k, v) (m2 :: ms2) ++ '\x7d' :: rest
            = '"' :: (escapeString k ++ '"' ::
                (':' :: (stringify v ++ ',' :: (stringifyMembers m2 ms2 ++ '\x7d' :: rest)))) by
          rw [stringifyMembers]; simp]
        rw [parseMembers_cons_eq f0 _ _ (by decide), if_pos rfl]
        rw [parseStr_escape k
          (':' :: (stringify v ++ ',' :: (stringifyMembers m2 ms2 ++ '\x7d' :: rest)))]
        have hfv : fuelV v ≤ f0 := by
          rw [show fuelMembers (k, v) (m2 :: ms2)
              = 1 + max (fuelV v) (fuelMembers m2 ms2) by rw [fuelMembers]] at hf
          omega
        simp only [skipWs_cons_nonws (show isWsChar ':' = false by decide)]
        rw [show headIs ':' (':' :: (stringify v ++ ',' ::
            (stringifyMembers m2 ms2 ++ '\x7d' :: rest))) = true by simp [headIs]]
        simp only [if_true, List.tail_cons]
        have hltv : sizeOf v < n := by
          simp at hsz
          omega
        rw [(ih _ hltv).1 v le_rfl f0 hfv _ (by simp [nondigitHead])]
        simp only [skipWs_cons_nonws (show isWsChar ',' = false by decide)]
        rw [show headIs ',' (',' :: (stringifyMembers m2 ms2 ++ '\x7d' :: rest)) = true by
          simp [headIs]]
        simp only [if_true, List.tail_cons]
        obtain ⟨k2, v2⟩ := m2
        have hfm : fuelMembers (k2, v2) ms2 ≤ f0 := by
          rw [show fuelMembers (k, v) ((k2, v2) :: ms2)
              = 1 + max (fuelV v) (fuelMembers (k2, v2) ms2) by rw [fuelMembers]] at hf
          omega
        have hlt : sizeOf v2 + sizeOf ms2 < n := by
          simp at hsz
          omega
        rw [(ih _ hlt).2.2 k2 v2 ms2 le_rfl f0 hfm rest]
        simp

/-- Round-trip of the serializer through the parser for one value. -/
theorem parseV_stringify (j : Json) (f : Nat) (hf : fuelV j ≤ f) (rest : List Char)
    (hr : nondigitHead rest = true) :
    parseV f (stringify j ++ rest) = some (j, rest) :=
  (roundtrip_main (sizeOf j)).1 j le_rfl f hf rest hr

/-- The decimal rendering of an integer is nonempty and starts with a minus
sign or a digit. -/
theorem intToDec_head (t : Int) :
    ∃ c cs, intToDec t = c :: cs ∧ (c = '-' ∨ c.isDigit = true) := by
  unfold intToDec
  by_cases ht : t < 0
  · rw [if_pos ht]
    exact ⟨'-', _, rfl, Or.inl rfl⟩
  · rw [if_neg ht]
    obtain ⟨c, cs, heq, hdig, _⟩ := natDigits_head t.toNat
    exact ⟨c, cs, heq, Or.inr hdig⟩

/-- The fuel needed by the parser is dominated by the serialized length. -/
theorem fuel_le_main (n : Nat) :
    (∀ j : Json, sizeOf j ≤ n → fuelV j ≤ (stringify j).length) ∧
    (∀ (x : Json) (xs : List Json), sizeOf x + sizeOf xs ≤ n →
      fuelElems x xs ≤ (stringifyElems x xs).length + 1) ∧
    (∀ (k : List Char) (v : Json) (ms : List (List Char × Json)), sizeOf v + sizeOf ms ≤ n →
      fuelMembers (k, v) ms ≤ (stringifyMembers (k, v) ms).length + 1) := by
  induction n using Nat.strong_induction_on with
  | _ n ih =>
    refine ⟨?_, ?_, ?_⟩
    · intro j hsz
      cases j with
      | null => simp [fuelV, stringify]
      | bool b => cases b <;> simp [fuelV, stringify]
      | num t =>
        obtain ⟨c, cs, heq, _⟩ := intToDec_head t
        rw [show fuelV (Json.num t) = 1 by simp [fuelV]]
        rw [show stringify (Json.num t) = intToDec t by rw [stringify], heq]
        simp
      | str s => simp [fuelV, stringify]
      | arr xs =>
        cases xs with
        | nil => simp [fuelV, stringify]
        | cons x xt =>
          have hlt : sizeOf x + sizeOf xt < n := by
            simp at hsz
            omega
          have := (ih _ hlt).2.1 x xt le_rfl
          rw [show fuelV (Json.arr (x :: xt)) = 1 + fuelElems x xt by rw [fuelV]]
          rw [show stringify (Json.arr (x :: xt))
              = '[' :: (stringifyElems x xt ++ [']']) by rw [stringify]]
          simp
          omega
      | obj ms =>
        cases ms with
        | nil => simp [fuelV, stringify]
        | cons m mt =>
          obtain ⟨k, v⟩ := m
          have hlt : sizeOf v + sizeOf mt < n := by
            simp at hsz
            omega
          have := (ih _ hlt).2.2 k v mt le_rfl
          rw [show fuelV (Json.obj ((k, v) :: mt)) = 1 + fuelMembers (k, v) mt by rw [fuelV]]
          rw [show stringify (Json.obj ((k, v) :: mt))
              = '\x7b' :: (stringifyMembers (k, v) mt ++ ['\x7d']) by rw [stringify]]
          simp
          omega
    · intro x xs hsz
      cases xs with
      | nil =>
        have hlt : sizeOf x < n := by
          simp at hsz
          omega
        have := (ih _ hlt).1 x le_rfl
        rw [show fuelElems x [] = 1 + fuelV x by rw [fuelElems]]
        rw [show stringifyElems x [] = stringify x by rw [stringifyElems]]
        omega
      | cons y ys =>
        have hltx : sizeOf x < n := by
          simp at hsz
          omega
        have hlt : sizeOf y + sizeOf ys < n := by
          simp at hsz
          omega
        have h1 := (ih _ hltx).1 x le_rfl
        have h2 := (ih _ hlt).2.1 y ys le_rfl
        rw [show fuelElems x (y :: ys) = 1 + max (fuelV x) (fuelElems y ys) by rw [fuelElems]]
        rw [show stringifyElems x (y :: ys) = stringify x ++ ',' :: stringifyElems y ys by
          rw [stringifyElems]]
        simp
        omega
    · intro k v ms hsz
      cases ms with
      | nil =>
        have hlt : sizeOf v < n := by
          simp at hsz
          omega
        have := (ih _ hlt).1 v le_rfl
        rw [show fuelMembers (k, v) [] = 1 + fuelV v by rw [fuelMembers]]
        rw [show stringifyMembers (k, v) []
            = '"' :: (escapeString k ++ '"' :: ':' :: stringify v) by rw [stringifyMembers]]
        simp
        omega
      | cons m2 ms2 =>
        obtain ⟨k2, v2⟩ := m2
        have hltv : sizeOf v < n := by
          simp at hsz
          omega
        have hlt : sizeOf v2 + sizeOf ms2 < n := by
          simp at hsz
          omega
        have h1 := (ih _ hltv).1 v le_rfl
        have h2 := (ih _ hlt).2.2 k2 v2 ms2 le_rfl
        rw [show fuelMembers (k, v) ((k2, v2) :: ms2)
            = 1 + max (fuelV v) (fuelMembers (k2, v2) ms2) by rw [fuelMembers]]
        rw [show stringifyMembers (k, v) ((k2, v2) :: ms2)
            = ('"' :: (escapeString k ++ '"' :: ':' :: stringify v)) ++
                ',' :: stringifyMembers (k2, v2) ms2 by rw [stringifyMembers]]
        simp
        omega

/-- Full round-trip of the JSON codec: `JSON.parse` recovers exactly the
value that `JSON.stringify` serialized. -/
theorem parseJson_stringify (j : Json) : parseJson (stringify j) = some j := by
  unfold parseJson
  have hfuel : fuelV j ≤ (stringify j).length + 1 := by
    have := (fuel_le_main (sizeOf j)).1 j le_rfl
    omega
  have h := parseV_stringify j ((stringify j).length + 1) hfuel [] (by simp [nondigitHead])
  rw [List.append_nil] at h
  rw [h]
  simp [skipWs]

/-! ## UTF-8 round-trip -/

/-- The scalar-value bounds carried by a Lean character. -/
theorem char_toNat_bounds (c : Char) :
    c.toNat < 0xd800 ∨ (0xdfff < c.toNat ∧ c.toNat < 0x110000) := by
  rcases c.valid with h | h
  · left
    exact_mod_cast h
  · right
    exact ⟨by exact_mod_cast h.1, by exact_mod_cast h.2⟩

/-- Decoding the UTF-8 encoding of a string recovers the string. -/
theorem utf8_roundtrip (s : List Char) : utf8Decode (utf8Encode s) = s := by
  induction s with
  | nil => rw [show utf8Encode [] = [] by simp [utf8Encode], utf8Decode]
  | cons c cs ih =>
    have hb := char_toNat_bounds c
    rw [show utf8Encode (c :: cs) = utf8EncodeChar c ++ utf8Encode cs by simp [utf8Encode]]
    by_cases h1 : c.toNat < 0x80
    · rw [show utf8EncodeChar c = [c.toNat] by simp [utf8EncodeChar, h1]]
      simp only [List.cons_append, List.nil_append]
      rw [utf8Decode, if_pos h1, Char.ofNat_toNat, ih]
    · by_cases h2 : c.toNat < 0x800
      · rw [show utf8EncodeChar c = [0xC0 + c.toNat / 64, 0x80 + c.toNat % 64] by
          simp [utf8EncodeChar, h1, h2]]
        simp only [List.cons_append, List.nil_append]
        rw [utf8Decode, if_neg (by omega), if_pos (by omega), utf8Tail1]
        rw [show (0xC0 + c.toNat / 64 - 0xC0) * 64 + (0x80 + c.toNat % 64 - 0x80) = c.toNat by
          omega]
        rw [Char.ofNat_toNat, ih]
      · by_cases h3 : c.toNat < 0x10000
        · rw [show utf8EncodeChar c
              = [0xE0 + c.toNat / 4096, 0x80 + c.toNat / 64 % 64, 0x80 + c.toNat % 64] by
            simp [utf8EncodeChar, h1, h2, h3]]
          simp only [List.cons_append, List.nil_append]
          rw [utf8Decode, if_neg (by omega), if_neg (by omega), if_pos (by omega), utf8Tail2]
          rw [show (0xE0 + c.toNat / 4096 - 0xE0) * 4096 + (0x80 + c.toNat / 64 % 64 - 0x80) * 64
              + (0x80 + c.toNat % 64 - 0x80) = c.toNat by omega]
          rw [Char.ofNat_toNat, ih]
        · rw [show utf8EncodeChar c
              = [0xF0 + c.toNat / 262144, 0x80 + c.toNat / 4096 % 64, 0x80 + c.toNat / 64 % 64,
                 0x80 + c.toNat % 64] by
            simp [utf8EncodeChar, h1, h2, h3]]
          simp only [List.cons_append, List.nil_append]
          rw [utf8Decode, if_neg (by omega), if_neg (by omega), if_neg (by omega), utf8Tail3]
          rw [show (0xF0 + c.toNat / 262144 - 0xF0) * 262144
              + (0x80 + c.toNat / 4096 % 64 - 0x80) * 4096
              + (0x80 + c.toNat / 64 % 64 - 0x80) * 64 + (0x80 + c.toNat % 64 - 0x80)
              = c.toNat by omega]
          rw [Char.ofNat_toNat, ih]

/-- Every byte emitted by the UTF-8 encoder is below 256. -/
theorem utf8Encode_bytes_lt (s : List Char) : ∀ b ∈ utf8Encode s, b < 256 := by
  induction s with
  | nil => simp [utf8Encode]
  | cons c cs ih =>
    intro b hb
    rw [show utf8Encode (c :: cs) = utf8EncodeChar c ++ utf8Encode cs by simp [utf8Encode]]
      at hb
    rcases List.mem_append.mp hb with hm | hm
    · have hv := char_toNat_bounds c
      by_cases h1 : c.toNat < 0x80
      · rw [show utf8EncodeChar c = [c.toNat] by simp [utf8EncodeChar, h1]] at hm
        simp at hm
        omega
      · by_cases h2 : c.toNat < 0x800
        · rw [show utf8EncodeChar c = [0xC0 + c.toNat / 64, 0x80 + c.toNat % 64] by
            simp [utf8EncodeChar, h1, h2]] at hm
          simp at hm
          rcases hm with h | h <;> omega
        · by_cases h3 : c.toNat < 0x10000
          · rw [show utf8EncodeChar c
                = [0xE0 + c.toNat / 4096, 0x80 + c.toNat / 64 % 64, 0x80 + c.toNat % 64] by
              simp [utf8EncodeChar, h1, h2, h3]] at hm
            simp at hm
            rcases hm with h | h | h <;> omega
          · rw [show utf8EncodeChar c
                = [0xF0 + c.toNat / 262144, 0x80 + c.toNat / 4096 % 64, 0x80 + c.toNat / 64 % 64,
                   0x80 + c.toNat % 64] by
              simp [utf8EncodeChar, h1, h2, h3]] at hm
            simp at hm
            rcases hm with h | h | h | h <;> omega
    · exact ih b hm

/-! ## Base64 round-trip -/

/-- Alphabet table round-trip for six-bit values, checked by evaluation. -/
theorem charToSix_sixToChar : ∀ n : Fin 64, charToSix (sixToChar n.val) = some n.val := by
  decide

/-- Alphabet table round-trip, inequality form. -/
theorem charToSix_lt {n : Nat} (h : n < 64) : charToSix (sixToChar n) = some n :=
  charToSix_sixToChar ⟨n, h⟩

/-- The padding character carries no six-bit value. -/
theorem charToSix_pad : charToSix '=' = none := by decide

/-- Decoding the base64 encoding of a byte list recovers the bytes. -/
theorem base64_roundtrip : ∀ bs : List Nat, (∀ b ∈ bs, b < 256) →
    base64Decode (base64Encode bs) = bs
  | [], _ => rfl
  | [b0], h => by
    have h0 : b0 < 256 := h b0 (by simp)
    rw [show base64Encode [b0] = [sixToChar (b0 / 4), sixToChar (b0 % 4 * 16), '=', '='] by
      rw [base64Encode]]
    unfold base64Decode
    rw [show sextets [sixToChar (b0 / 4), sixToChar (b0 % 4 * 16), '=', '=']
        = [b0 / 4, b0 % 4 * 16] by
      simp [sextets, charToSix_lt (show b0 / 4 < 64 by omega),
        charToSix_lt (show b0 % 4 * 16 < 64 by omega), charToSix_pad]]
    rw [bytesOfSextets]
    congr 1
    omega
  | [b0, b1], h => by
    have h0 : b0 < 256 := h b0 (by simp)
    have h1 : b1 < 256 := h b1 (by simp)
    rw [show base64Encode [b0, b1]
        = [sixToChar (b0 / 4), sixToChar (b0 % 4 * 16 + b1 / 16), sixToChar (b1 % 16 * 4), '='] by
      rw [base64Encode]]
    unfold base64Decode
    rw [show sextets [sixToChar (b0 / 4), sixToChar (b0 % 4 * 16 + b1 / 16),
        sixToChar (b1 % 16 * 4), '='] = [b0 / 4, b0 % 4 * 16 + b1 / 16, b1 % 16 * 4] by
      simp [sextets, charToSix_lt (show b0 / 4 < 64 by omega),
        charToSix_lt (show b0 % 4 * 16 + b1 / 16 < 64 by omega),
        charToSix_lt (show b1 % 16 * 4 < 64 by omega), charToSix_pad]]
    rw [bytesOfSextets]
    congr 1
    · omega
    congr 1
    omega
  | b0 :: b1 :: b2 :: rest, h => by
    have h0 : b0 < 256 := h b0 (by simp)
    have h1 : b1 < 256 := h b1 (by simp)
    have h2 : b2 < 256 := h b2 (by simp)
    have ih := base64_roundtrip rest (fun b hb => h b (by simp [hb]))
    unfold base64Decode at ih ⊢
    rw [show base64Encode (b0 :: b1 :: b2 :: rest)
        = sixToChar (b0 / 4) :: sixToChar (b0 % 4 * 16 + b1 / 16) ::
            sixToChar (b1 % 16 * 4 + b2 / 64) :: sixToChar (b2 % 64) :: base64Encode rest by
      rw [base64Encode]]
    rw [show sextets (sixToChar (b0 / 4) :: sixToChar (b0 % 4 * 16 + b1 / 16) ::
        sixToChar (b1 % 16 * 4 + b2 / 64) :: sixToChar (b2 % 64) :: base64Encode rest)
        = (b0 / 4) :: (b0 % 4 * 16 + b1 / 16) :: (b1 % 16 * 4 + b2 / 64) :: (b2 % 64) ::
            sextets (base64Encode rest) by
      simp [sextets, charToSix_lt (show b0 / 4 < 64 by omega),
        charToSix_lt (show b0 % 4 * 16 + b1 / 16 < 64 by omega),
        charToSix_lt (show b1 % 16 * 4 + b2 / 64 < 64 by omega),
        charToSix_lt (show b2 % 64 < 64 by omega)]]
    rw [bytesOfSextets, ih]
    congr 1
    · omega
    congr 1
    · omega
    congr 1
    omega

/-! ## Pipeline composition -/

/-- The full wire round-trip: what the producer appends, transported as
base64, decodes on the consumer side to exactly the serialized document. -/
theorem pipeline_roundtrip (m : MessageEvent) :
    consumerDecode (base64Encode (producerEncode m)) = Except.ok (jsonOfEvent m) := by
  unfold consumerDecode producerEncode decodeBytes
  rw [base64_roundtrip _ (utf8Encode_bytes_lt _), utf8_roundtrip, parseJson_stringify]

/-- Reading the two required properties back from the serialized document
recovers the original event. -/
theorem eventOfJson_jsonOfEvent (m : MessageEvent) : eventOfJson (jsonOfEvent m) = some m :=
  rfl

/-! ## Batch handler characterization -/

/-- A record that decodes successfully yields a value. -/
theorem decodeOk_elim {r : List Char} (h : decodeOk r = true) :
    ∃ j, consumerDecode r = Except.ok j := by
  unfold decodeOk at h
  cases hcd : consumerDecode r with
  | ok j => exact ⟨j, rfl⟩
  | error e => rw [hcd] at h; simp at h

/-- A record that fails to decode yields an error. -/
theorem decodeFail_elim {r : List Char} (h : decodeOk r = false) :
    ∃ e, consumerDecode r = Except.error e := by
  unfold decodeOk at h
  cases hcd : consumerDecode r with
  | ok j => rw [hcd] at h; simp at h
  | error e => exact ⟨e, rfl⟩

/-- When every record of the batch decodes, the handler logs each record in
delivery order and resolves successfully. -/
theorem onBatch_all_ok (records : List (List Char)) (h : ∀ r ∈ records, decodeOk r = true) :
    onBatch records = ⟨records.map (fun r => (recvTag, decodedOr r)), Except.ok ()⟩ := by
  induction records with
  | nil => rfl
  | cons r rs ih =>
    obtain ⟨j, hj⟩ := decodeOk_elim (h r (by simp))
    rw [onBatch, hj, ih (fun x hx => h x (by simp [hx]))]
    simp [decodedOr, hj]

/-- When the batch is a block of decodable records followed by an
undecodable one, the handler logs exactly the records before the failure,
in order, and rejects with the failing record's decode error. -/
theorem onBatch_first_fail (good : List (List Char)) (bad : List Char)
    (rest : List (List Char)) (hg : ∀ r ∈ good, decodeOk r = true) (hb : decodeOk bad = false) :
    onBatch (good ++ bad :: rest)
      = ⟨good.map (fun r => (recvTag, decodedOr r)), Except.error (errOf bad)⟩ := by
  induction good with
  | nil =>
    obtain ⟨e, he⟩ := decodeFail_elim hb
    rw [List.nil_append, onBatch, he]
    simp [errOf, he]
  | cons g gs ih =>
    obtain ⟨j, hj⟩ := decodeOk_elim (hg g (by simp))
    rw [List.cons_append, onBatch, hj, ih (fun x hx => hg x (by simp [hx]))]
    simp [decodedOr, hj]

/-- The handler's behavior when the first undecodable record sits at
position `k`: the trace holds exactly the records before `k`, and the
result is that record's decode error. -/
theorem onBatch_fail_at (records : List (List Char)) (k : Nat) (hk : k < records.length)
    (hok : ∀ i (hi : i < records.length), i < k → decodeOk (records.get ⟨i, hi⟩) = true)
    (hbad : decodeOk (records.get ⟨k, hk⟩) = false) :
    onBatch records = ⟨(records.take k).map (fun r => (recvTag, decodedOr r)),
      Except.error (errOf (records.get ⟨k, hk⟩))⟩ := by
  have hg : ∀ r ∈ records.take k, decodeOk r = true := by
    intro r hr
    obtain ⟨⟨i, hi⟩, hget⟩ := List.mem_iff_get.mp hr
    have hi2 := hi
    simp only [List.length_take] at hi2
    have hlen : i < records.length := by omega
    have hik : i < k := by omega
    have hsame : (records.take k).get ⟨i, hi⟩ = records.get ⟨i, hlen⟩ := by
      simp [List.getElem_take]
    rw [← hget, hsame]
    exact hok i hlen hik
  have h1 : records.drop k = records.get ⟨k, hk⟩ :: records.drop (k + 1) :=
    List.drop_eq_getElem_cons hk
  have hdecomp : records = records.take k ++ records.get ⟨k, hk⟩ :: records.drop (k + 1) := by
    conv_lhs => rw [← List.take_append_drop k records, h1]
  conv_lhs => rw [hdecomp]
  rw [onBatch_first_fail _ _ _ hg hbad]

/-! ## The claims -/

/-- C1.  For every valid Message (non-empty text payload, integer
millisecond timestamp), the consumer's decode (base64-decode, then UTF-8,
then `JSON.parse`) applied to the producer's encode (`JSON.stringify` to
bytes, transported as base64) returns exactly the serialized document, and
the `MessageEvent` view of that document (the `message`/`time` properties
the consumer's TypeScript type reads - the spec's `message`/`timestamp`
attributes) is the original Message.  Decode-encode is the identity on
valid Messages. -/
theorem claim1_roundtrip (m : MessageEvent) (hvalid : m.message ≠ []) :
    consumerDecode (base64Encode (producerEncode m)) = Except.ok (jsonOfEvent m) ∧
    eventOfJson (jsonOfEvent m) = some m :=
  ⟨pipeline_roundtrip m, rfl⟩

/-- Witness for C1 at the concrete Message `{message: 'Hello',
time: 1700000000000}`. -/
theorem claim1_roundtrip_witness :
    helloEvent.message ≠ [] ∧
    (consumerDecode (base64Encode (producerEncode helloEvent))
        = Except.ok (jsonOfEvent helloEvent) ∧
      eventOfJson (jsonOfEvent helloEvent) = some helloEvent) :=
  ⟨by decide, claim1_roundtrip helloEvent (by decide)⟩

/-- C2, counterexample.  The claim says decode of well-formed JSON lacking
the required attributes fails with `MissingField`; but the code performs no
field validation (`JSON.parse` plus a type cast), so at the concrete input
`[123, 125]` - the UTF-8 bytes of the well-formed document `{}`, which has
neither `message` nor `time` - decode succeeds, and in particular does not
fail with `MissingField`. -/
theorem claim2_missing_field_counterexample :
    parseJson (utf8Decode [123, 125]) = some (Json.obj []) ∧
    decodeBytes [123, 125] = Except.ok (Json.obj []) ∧
    decodeBytes [123, 125] ≠ Except.error DecodeError.MissingField := by
  refine ⟨rfl, rfl, ?_⟩
  intro hcontra
  rw [show decodeBytes [123, 125] = Except.ok (Json.obj []) from rfl] at hcontra
  exact Except.noConfusion hcontra

/-- C2, amended.  Decode of any byte sequence that parses as well-formed
JSON succeeds with the parsed document, whether or not the `message` and
`time` attributes are present; no input makes decode fail with
`MissingField`, because the code never validates fields. -/
theorem claim2_no_field_validation (bs : List Nat) :
    (∀ j, parseJson (utf8Decode bs) = some j → decodeBytes bs = Except.ok j) ∧
    decodeBytes bs ≠ Except.error DecodeError.MissingField := by
  constructor
  · intro j hj
    unfold decodeBytes
    rw [hj]
  · unfold decodeBytes
    cases hp : parseJson (utf8Decode bs) with
    | some j => simp
    | none => simp

/-- Witness for the amended C2 at the concrete document `{}`. -/
theorem claim2_no_field_validation_witness :
    decodeBytes [123, 125] = Except.ok (Json.obj []) ∧
    decodeBytes [123, 125] ≠ Except.error DecodeError.MissingField :=
  ⟨(claim2_no_field_validation [123, 125]).1 (Json.obj []) rfl,
    (claim2_no_field_validation [123, 125]).2⟩

/-- C3.  Invoked with any configured stream name and a wall clock reading
1700000000000, the producer handler constructs the Message
`{message: 'Hello', time: 1700000000000}`, performs exactly one append
whose payload is the encoding of that Message (with the fixed partition key
`key-1`), and logs the sent event. -/
theorem claim3_schedule_scenario (streamName : List Char) :
    producerHandler streamName 1700000000000 (Except.ok ())
      = ⟨[⟨streamName, ['k', 'e', 'y', '-', '1'], producerEncode helloEvent⟩],
         [(sentTag, helloEvent)], Except.ok ()⟩ := rfl

/-- C4.  When every record of a batch decodes, the handler's observability
trace is exactly the per-record log lines in delivery order - the i-th
line of the trace is the processing action on the i-th record - and the
invocation succeeds.  The source loop is synchronous and sequential (no
concurrency primitive exists in the handler), so the action on record i
completes before the action on record i+1 begins; the trace equation
witnesses that order. -/
theorem claim4_ordering (records : List (List Char))
    (h : ∀ r ∈ records, decodeOk r = true) :
    (onBatch records).result = Except.ok () ∧
    (onBatch records).logs = records.map (fun r => (recvTag, decodedOr r)) := by
  rw [onBatch_all_ok records h]
  exact ⟨rfl, rfl⟩

/-- Witness for C4 on a concrete two-record batch. -/
theorem claim4_ordering_witness :
    (∀ r ∈ [sampleGoodA, sampleGoodB], decodeOk r = true) ∧
    ((onBatch [sampleGoodA, sampleGoodB]).result = Except.ok () ∧
      (onBatch [sampleGoodA, sampleGoodB]).logs
        = [sampleGoodA, sampleGoodB].map (fun r => (recvTag, decodedOr r))) :=
  ⟨by decide, claim4_ordering [sampleGoodA, sampleGoodB] (by decide)⟩

/-- C5.  When the first record that fails to decode sits at position `k`,
the whole invocation fails: the promise rejects with the decode error of
record `k`, and the number of processing actions performed is exactly `k`,
so the failure position - the spec's `ProcessingError{position}` - is `k`.
The code propagates the thrown decode error itself; the position is
observable as the length of the emitted trace. -/
theorem claim5_fail_position (records : List (List Char)) (k : Nat) (hk : k < records.length)
    (hok : ∀ i (hi : i < records.length), i < k → decodeOk (records.get ⟨i, hi⟩) = true)
    (hbad : decodeOk (records.get ⟨k, hk⟩) = false) :
    (onBatch records).result = Except.error (errOf (records.get ⟨k, hk⟩)) ∧
    (onBatch records).logs.length = k := by
  rw [onBatch_fail_at records k hk hok hbad]
  refine ⟨rfl, ?_⟩
  simp [List.length_take]
  omega

/-- Witness for C5: the spec's end-to-end scenario 3, a batch of records
at positions 0, 1, 2 whose record at position 1 is malformed. -/
theorem claim5_fail_position_witness :
    ((1 : Nat) < ([sampleGoodA, sampleBad, sampleGoodB] : List (List Char)).length) ∧
    (∀ i (hi : i < ([sampleGoodA, sampleBad, sampleGoodB] : List (List Char)).length), i < 1 →
      decodeOk (([sampleGoodA, sampleBad, sampleGoodB] : List (List Char)).get ⟨i, hi⟩) = true) ∧
    decodeOk (([sampleGoodA, sampleBad, sampleGoodB] : List (List Char)).get
      ⟨1, by decide⟩) = false ∧
    ((onBatch [sampleGoodA, sampleBad, sampleGoodB]).result
        = Except.error (errOf (([sampleGoodA, sampleBad, sampleGoodB] : List (List Char)).get
            ⟨1, by decide⟩)) ∧
      (onBatch [sampleGoodA, sampleBad, sampleGoodB]).logs.length = 1) :=
  ⟨by decide, by decide, by decide,
    claim5_fail_position [sampleGoodA, sampleBad, sampleGoodB] 1 (by decide)
      (by decide) (by decide)⟩

/-- C6.  Decode of any byte sequence that is not well-formed JSON (the
model's `JSON.parse` returns no document) fails, and the error kind is
`MalformedPayload` - the propagated `JSON.parse` syntax error. -/
theorem claim6_malformed (bs : List Nat) (h : parseJson (utf8Decode bs) = none) :
    decodeBytes bs = Except.error DecodeError.MalformedPayload := by
  unfold decodeBytes
  rw [h]

/-- Witness for C6 at the concrete byte 120, the UTF-8 text `x`. -/
theorem claim6_malformed_witness :
    parseJson (utf8Decode [120]) = none ∧
    decodeBytes [120] = Except.error DecodeError.MalformedPayload :=
  ⟨rfl, claim6_malformed [120] rfl⟩

/-- C7.  Decode of any well-formed document carrying the required
`message` and `time` properties - in particular one that also carries
unknown extra fields, in any position - succeeds, and the `MessageEvent`
view of the result (the properties the consumer's TypeScript type reads)
is exactly the Message built from the required attributes, the extra
fields being ignored by that view.  (At runtime the parsed object itself
still carries the extra fields; the code applies no stripping, only the
structural type cast.) -/
theorem claim7_forward_compat (fields : List (List Char × Json)) (m : List Char) (t : Int)
    (hm : lookupLast msgKey fields = some (Json.str m))
    (ht : lookupLast timeKey fields = some (Json.num t)) :
    decodeBytes (utf8Encode (stringify (Json.obj fields))) = Except.ok (Json.obj fields) ∧
    eventOfJson (Json.obj fields) = some ⟨m, t⟩ := by
  constructor
  · unfold decodeBytes
    rw [utf8_roundtrip, parseJson_stringify]
  · rw [show eventOfJson (Json.obj fields)
        = (match lookupLast msgKey fields, lookupLast timeKey fields with
           | some (Json.str m), some (Json.num t) => some ⟨m, t⟩
           | _, _ => none) from rfl]
    rw [hm, ht]

/-- Witness for C7 at a concrete document with an extra unknown field. -/
theorem claim7_forward_compat_witness :
    lookupLast msgKey [(msgKey, Json.str ['a']), (timeKey, Json.num 1),
      (['e', 'x'], Json.bool true)] = some (Json.str ['a']) ∧
    lookupLast timeKey [(msgKey, Json.str ['a']), (timeKey, Json.num 1),
      (['e', 'x'], Json.bool true)] = some (Json.num 1) ∧
    (decodeBytes (utf8Encode (stringify (Json.obj [(msgKey, Json.str ['a']),
        (timeKey, Json.num 1), (['e', 'x'], Json.bool true)])))
      = Except.ok (Json.obj [(msgKey, Json.str ['a']), (timeKey, Json.num 1),
          (['e', 'x'], Json.bool true)]) ∧
      eventOfJson (Json.obj [(msgKey, Json.str ['a']), (timeKey, Json.num 1),
        (['e', 'x'], Json.bool true)]) = some ⟨['a'], 1⟩) :=
  ⟨rfl, rfl, claim7_forward_compat _ ['a'] 1 rfl rfl⟩

/-- C8.  Each producer invocation makes exactly one append attempt,
whatever the outcome; on success it emits exactly one observability record
containing the message; if the append rejects, the handler's promise
rejects with that error (the spec's `PublishError`), no retry happens (the
call count stays one), and the success log line is never emitted. -/
theorem claim8_no_retry (streamName : List Char) (now : Int) (e : PublishError) :
    (producerHandler streamName now (Except.ok ())).calls.length = 1 ∧
    (producerHandler streamName now (Except.error e)).calls.length = 1 ∧
    (producerHandler streamName now (Except.ok ())).logs
      = [(sentTag, ⟨['H', 'e', 'l', 'l', 'o'], now⟩)] ∧
    (producerHandler streamName now (Except.error e)).result = Except.error e ∧
    (producerHandler streamName now (Except.error e)).logs = [] :=
  ⟨rfl, rfl, rfl, rfl, rfl⟩

/-- C9.  An empty batch completes successfully with no processing action
and no observability record. -/
theorem claim9_empty_batch : onBatch [] = ⟨[], Except.ok ()⟩ := rfl

/-- C10.  The fail-fast behavior is process-then-stop: when the first
undecodable record sits at position `k`, the processing action is
performed for exactly the records at positions 0 through k-1 (the trace is
the in-order image of the first `k` records) and never for any record at a
position at or beyond `k` (the trace length is `k`). -/
theorem claim10_process_then_stop (records : List (List Char)) (k : Nat)
    (hk : k < records.length)
    (hok : ∀ i (hi : i < records.length), i < k → decodeOk (records.get ⟨i, hi⟩) = true)
    (hbad : decodeOk (records.get ⟨k, hk⟩) = false) :
    (onBatch records).logs = (records.take k).map (fun r => (recvTag, decodedOr r)) ∧
    (onBatch records).logs.length = k := by
  rw [onBatch_fail_at records k hk hok hbad]
  refine ⟨rfl, ?_⟩
  simp [List.length_take]
  omega

/-- Witness for C10 on a batch whose records at positions 0 and 1 decode
and whose record at position 2 is malformed. -/
theorem claim10_process_then_stop_witness :
    ((2 : Nat) < ([sampleGoodB, sampleGoodA, sampleBad] : List (List Char)).length) ∧
    (∀ i (hi : i < ([sampleGoodB, sampleGoodA, sampleBad] : List (List Char)).length), i < 2 →
      decodeOk (([sampleGoodB, sampleGoodA, sampleBad] : List (List Char)).get ⟨i, hi⟩) = true) ∧
    decodeOk (([sampleGoodB, sampleGoodA, sampleBad] : List (List Char)).get
      ⟨2, by decide⟩) = false ∧
    ((onBatch [sampleGoodB, sampleGoodA, sampleBad]).logs
        = (([sampleGoodB, sampleGoodA, sampleBad] : List (List Char)).take 2).map
            (fun r => (recvTag, decodedOr r)) ∧
      (onBatch [sampleGoodB, sampleGoodA, sampleBad]).logs.length = 2) :=
  ⟨by decide, by decide, by decide,
    claim10_process_then_stop [sampleGoodB, sampleGoodA, sampleBad] 2 (by decide)
      (by decide) (by decide)⟩
